import Mathlib

/-!
Verification of the awstream runtime core.

The development shallowly embeds the two core subsystems:

* `profile.rs` — the bandwidth-driven configuration selector
  (`SimpleProfile`, `Profile`): pure index arithmetic over an ascending
  list of bandwidth thresholds.
* `socket.rs` — the framed transport layer (`Socket` with its
  backpressure-aware `start_send`/`poll_complete`, and the `FramedRead`
  decode state machine).

Modelling conventions:

* `f64` bandwidths carry no NaN in any claim, so they are embedded as `ℚ`
  (a total linear order, matching `partial_cmp(..).expect(..)` never
  failing).
* Rust `usize` index arithmetic is `Nat`; `len() - 1` is `Nat` truncated
  subtraction, which agrees with the source on the non-empty tables the
  claims quantify over.
* Nondeterministic transport I/O (`net.write`, `net.flush`,
  `read_buf`) is modelled by an explicit schedule of transport responses
  consumed in order; `WouldBlock` and I/O errors are schedule entries.
* The external codec capability (`AsCodec`) is a parameter: an `encode`
  function on the sink side, and `decode` / `decode_eof` functions on the
  reader side.
-/

namespace AWStream

/-! ## profile.rs: `SimpleProfile` and `Profile` -/

/-- `Record` from profile.rs: one rule of a profile.  The `f64` fields are
embedded as `ℚ`. -/
structure Record (C : Type) where
  bandwidth : ℚ
  config : C
  accuracy : ℚ

/-- `SimpleProfile` from profile.rs: a list of bandwidth thresholds and the
current level index. -/
structure SimpleProfile where
  levels : List ℚ
  current : Nat
deriving Repr, DecidableEq

/-- Model of Rust std `slice::binary_search_by` through its documented
contract (the function itself is std-library code, external to this
repository): on success `Ok i` with `levels[i] = bw`, taking the first
matching index (unique on the strictly ascending sequences the claims
quantify over); on failure `Err i` where `i` is the insertion point, i.e.
the number of elements strictly below `bw` in a sorted sequence. -/
def binary_search (levels : List ℚ) (bw : ℚ) : Except Nat Nat :=
  if bw ∈ levels then .ok (levels.findIdx (fun v => decide (v = bw)))
  else .error (levels.countP (fun v => decide (v < bw)))

/-- `SimpleProfile::get_level_index`: binary search; on `Err i` return
`0` if `i = 0` else `i - 1`. -/
def SimpleProfile.get_level_index (p : SimpleProfile) (bw : ℚ) : Nat :=
  match binary_search p.levels bw with
  | .ok i => i
  | .error i => if i = 0 then 0 else i - 1

/-- `SimpleProfile::adjust_level`: recompute the level for `bw`; if it
differs from `current`, update and return the new index, else `none`.
Returned as (result, updated profile). -/
def SimpleProfile.adjust_level (p : SimpleProfile) (bw : ℚ) :
    Option Nat × SimpleProfile :=
  let new_level := p.get_level_index bw
  if p.current ≠ new_level then
    (some new_level, { p with current := new_level })
  else
    (none, p)

/-- `SimpleProfile::advance_level`: increment `current` if it is not the
last index, returning the new index; otherwise `none`. -/
def SimpleProfile.advance_level (p : SimpleProfile) :
    Option Nat × SimpleProfile :=
  if p.current < p.levels.length - 1 then
    (some (p.current + 1), { p with current := p.current + 1 })
  else
    (none, p)

/-- `SimpleProfile::next_rate`: the threshold of the next higher level. -/
def SimpleProfile.next_rate (p : SimpleProfile) : Option ℚ :=
  if h : p.current < p.levels.length - 1 then
    some (p.levels.get ⟨p.current + 1, by omega⟩)
  else
    none

/-- `SimpleProfile::is_max`. -/
def SimpleProfile.is_max (p : SimpleProfile) : Bool :=
  p.current = p.levels.length - 1

/-- Repeated `advance_level` calls (state after `k` calls). -/
def SimpleProfile.advanceN : SimpleProfile → Nat → SimpleProfile
  | p, 0 => p
  | p, k + 1 => (p.advance_level).2.advanceN k

/-- `Profile` from profile.rs: the simple profile plus the record list. -/
structure Profile (C : Type) where
  simple_profile : SimpleProfile
  records : List (Record C)

/-- `Profile::_with_vec`: build a profile from a record list; `levels` is
the list of bandwidths, `current` starts at 0. -/
def Profile.with_vec {C : Type} (vec : List (Record C)) : Profile C :=
  { records := vec
    simple_profile := { levels := vec.map (·.bandwidth), current := 0 } }

/-- The index invariant of the spec's data model: `current` is in
`[0, len)`. -/
def SimpleProfile.Inv (p : SimpleProfile) : Prop :=
  p.current < p.levels.length

instance (p : SimpleProfile) : Decidable p.Inv := by
  unfold SimpleProfile.Inv; infer_instance

/-! ### Helper lemmas on sorted threshold lists -/

lemma sorted_getElem_lt (l : List ℚ) (hs : l.Sorted (· < ·)) {i j : Nat}
    (hi : i < l.length) (hj : j < l.length) (hij : i < j) : l[i] < l[j] :=
  List.pairwise_iff_getElem.mp hs i j hi hj hij

lemma sorted_getElem_le (l : List ℚ) (hs : l.Sorted (· < ·)) {i j : Nat}
    (hi : i < l.length) (hj : j < l.length) (hij : i ≤ j) : l[i] ≤ l[j] := by
  rcases Nat.lt_or_ge i j with h | h
  · exact le_of_lt (sorted_getElem_lt l hs hi hj h)
  · have : i = j := by omega
    subst this; rfl

/-- `countP (· < b)` counts `k` when the elements strictly below `b` are
exactly the first `k`. -/
lemma countP_lt_split (l : List ℚ) (b : ℚ) (k : Nat) (hk : k ≤ l.length)
    (hlo : ∀ x ∈ l.take k, x < b) (hhi : ∀ x ∈ l.drop k, b ≤ x) :
    l.countP (fun v => decide (v < b)) = k := by
  conv_lhs => rw [← l.take_append_drop k]
  rw [List.countP_append]
  have h1 : (l.take k).countP (fun v => decide (v < b)) = (l.take k).length :=
    List.countP_eq_length.mpr (fun a ha => by simpa using hlo a ha)
  have h2 : (l.drop k).countP (fun v => decide (v < b)) = 0 :=
    List.countP_eq_zero.mpr (fun a ha => by simpa using not_lt.mpr (hhi a ha))
  rw [h1, h2, List.length_take]
  omega

/-- On a strictly ascending list, `findIdx` for equality with `l[i]`
returns `i`. -/
lemma findIdx_eq_of_sorted (l : List ℚ) (b : ℚ) (hs : l.Sorted (· < ·)) :
    ∀ (i : Nat) (hi : i < l.length), l[i] = b →
      l.findIdx (fun v => decide (v = b)) = i := by
  induction l with
  | nil => intro i hi; simp at hi
  | cons x xs ih =>
    intro i hi hb
    rcases List.sorted_cons.mp hs with ⟨hx, hxs⟩
    cases i with
    | zero =>
      simp only [List.getElem_cons_zero] at hb
      simp [List.findIdx_cons, hb]
    | succ j =>
      simp only [List.getElem_cons_succ] at hb
      have hj : j < xs.length := by simpa using hi
      have hxb : x ≠ b := by
        have := hx xs[j] (xs.getElem_mem hj)
        rw [hb] at this
        exact ne_of_lt this
      simp [List.findIdx_cons, hxb, ih hxs j hj hb]

/-- The result of `get_level_index` is always within bounds on a non-empty
list (whatever the bandwidth). -/
lemma get_level_index_lt (p : SimpleProfile) (bw : ℚ)
    (hne : p.levels ≠ []) : p.get_level_index bw < p.levels.length := by
  have hpos : 0 < p.levels.length := List.length_pos.mpr hne
  unfold SimpleProfile.get_level_index binary_search
  by_cases hmem : bw ∈ p.levels
  · simp only [if_pos hmem]
    exact List.findIdx_lt_length_of_exists ⟨bw, hmem, by simp⟩
  · simp only [if_neg hmem]
    have hle : p.levels.countP (fun v => decide (v < bw)) ≤ p.levels.length :=
      List.countP_le_length _
    split <;> omega

/-- `get_level_index` only depends on the levels, not on `current`. -/
lemma get_level_index_mk (l : List ℚ) (c c' : Nat) (bw : ℚ) :
    SimpleProfile.get_level_index ⟨l, c⟩ bw =
      SimpleProfile.get_level_index ⟨l, c'⟩ bw := rfl

lemma adjust_level_levels (p : SimpleProfile) (bw : ℚ) :
    (p.adjust_level bw).2.levels = p.levels := by
  unfold SimpleProfile.adjust_level
  dsimp only
  split <;> rfl

lemma advance_level_levels (p : SimpleProfile) :
    p.advance_level.2.levels = p.levels := by
  unfold SimpleProfile.advance_level
  split <;> rfl

lemma advance_level_current (p : SimpleProfile) :
    p.advance_level.2.current =
      if p.current < p.levels.length - 1 then p.current + 1 else p.current := by
  unfold SimpleProfile.advance_level
  split <;> simp_all

/-! ### Claims C1-C4 -/

/-- C1: on a non-empty, strictly ascending, NaN-free threshold list `T`,
`get_level_index` (the `locate` operation) returns `i` when `b = T[i]`,
returns `i` when `T[i] < b < T[i+1]`, and returns `0` when `b < T[0]`
(the documented below-minimum quirk). -/
theorem C1_locate_correct (T : List ℚ) (cur : Nat)
    (hs : T.Sorted (· < ·)) (hne : T ≠ []) (b : ℚ) :
    (∀ (i : Nat) (hi : i < T.length), T[i] = b →
        SimpleProfile.get_level_index ⟨T, cur⟩ b = i)
    ∧ (∀ (i : Nat) (hi : i + 1 < T.length), T[i] < b → b < T[i + 1] →
        SimpleProfile.get_level_index ⟨T, cur⟩ b = i)
    ∧ (∀ (h0 : 0 < T.length), b < T[0] →
        SimpleProfile.get_level_index ⟨T, cur⟩ b = 0) := by
  refine ⟨?_, ?_, ?_⟩
  · intro i hi hb
    have hmem : b ∈ T := List.mem_iff_getElem.mpr ⟨i, hi, hb⟩
    unfold SimpleProfile.get_level_index binary_search
    simp only [hmem, if_pos]
    exact findIdx_eq_of_sorted T b hs i hi hb
  · intro i hi hlo hhi
    have hi' : i < T.length := by omega
    have hmem : b ∉ T := by
      intro hmem
      obtain ⟨j, hj, hbj⟩ := List.mem_iff_getElem.mp hmem
      rcases Nat.lt_or_ge j (i + 1) with h | h
      · have : T[j] ≤ T[i] := sorted_getElem_le T hs hj hi' (by omega)
        rw [hbj] at this; exact absurd hlo (not_lt.mpr this)
      · have : T[i + 1] ≤ T[j] := sorted_getElem_le T hs hi hj h
        rw [hbj] at this; exact absurd hhi (not_lt.mpr this)
    have hcount : T.countP (fun v => decide (v < b)) = i + 1 := by
      apply countP_lt_split T b (i + 1) (by omega)
      · intro x hx
        obtain ⟨j, hj, rfl⟩ := List.mem_iff_getElem.mp hx
        have hjl : j < i + 1 := by
          have := hj; simp [List.length_take] at this; omega
        rw [List.getElem_take]
        calc T[j] ≤ T[i] := sorted_getElem_le T hs (by omega) hi' (by omega)
          _ < b := hlo
      · intro x hx
        obtain ⟨j, hj, rfl⟩ := List.mem_iff_getElem.mp hx
        rw [List.getElem_drop]
        have hjl : i + 1 + j < T.length := by
          have := hj; simp [List.length_drop] at this; omega
        calc b ≤ T[i + 1] := le_of_lt hhi
          _ ≤ T[i + 1 + j] := sorted_getElem_le T hs hi hjl (by omega)
    unfold SimpleProfile.get_level_index binary_search
    simp [hmem, hcount]
  · intro h0 hb
    have hmem : b ∉ T := by
      intro hmem
      obtain ⟨j, hj, hbj⟩ := List.mem_iff_getElem.mp hmem
      have : T[0] ≤ T[j] := sorted_getElem_le T hs h0 hj (by omega)
      rw [hbj] at this; exact absurd hb (not_lt.mpr this)
    have hcount : T.countP (fun v => decide (v < b)) = 0 := by
      apply countP_lt_split T b 0 (by omega)
      · simp
      · intro x hx
        obtain ⟨j, hj, rfl⟩ := List.mem_iff_getElem.mp hx
        rw [List.getElem_drop]
        have hjl : 0 + j < T.length := by
          have := hj; simp [List.length_drop] at this; omega
        calc b ≤ T[0] := le_of_lt hb
          _ ≤ T[0 + j] := sorted_getElem_le T hs h0 hjl (by omega)
    unfold SimpleProfile.get_level_index binary_search
    simp [hmem, hcount]

/-- Witness for C1 at `T = [1, 2, 3]`, `b = 2 = T[1]`: locate returns 1. -/
theorem C1_locate_correct_witness :
    ([1, 2, 3] : List ℚ).Sorted (· < ·) ∧ ([1, 2, 3] : List ℚ) ≠ [] ∧
      SimpleProfile.get_level_index ⟨[1, 2, 3], 0⟩ 2 = 1 :=
  ⟨by decide, by decide,
    (C1_locate_correct [1, 2, 3] 0 (by decide) (by decide) 2).1 1 (by decide)
      (by decide)⟩

/-- C2: `adjust_level bw` computes `get_level_index bw`; when that differs
from `current` it updates `current` and returns it, otherwise it returns
`none`; an immediate second call with the same `bw` returns `none`. -/
theorem C2_adjust_level (p : SimpleProfile) (bw : ℚ) (hne : p.levels ≠ []) :
    (p.get_level_index bw ≠ p.current →
      p.adjust_level bw =
        (some (p.get_level_index bw), { p with current := p.get_level_index bw }))
    ∧ (p.get_level_index bw = p.current → p.adjust_level bw = (none, p))
    ∧ ((p.adjust_level bw).2.adjust_level bw).1 = none := by
  obtain ⟨l, c⟩ := p
  refine ⟨?_, ?_, ?_⟩
  · intro h
    simp [SimpleProfile.adjust_level, Ne.symm h]
  · intro h
    simp [SimpleProfile.adjust_level, h]
  · by_cases h : SimpleProfile.get_level_index ⟨l, c⟩ bw = c
    · simp [SimpleProfile.adjust_level, h]
    · set g := SimpleProfile.get_level_index ⟨l, c⟩ bw with hg
      have h1 : SimpleProfile.adjust_level ⟨l, c⟩ bw = (some g, ⟨l, g⟩) := by
        simp [SimpleProfile.adjust_level, ← hg, Ne.symm h]
      rw [h1]
      have h2 : SimpleProfile.get_level_index ⟨l, g⟩ bw = g := by
        rw [get_level_index_mk l g c bw, ← hg]
      simp [SimpleProfile.adjust_level, h2]

/-- Witness for C2 at levels `[1, 2, 3]`, current 0, `bw = 3`: the first
call moves to level 2, the repeat returns `none`. -/
theorem C2_adjust_level_witness :
    ([1, 2, 3] : List ℚ) ≠ [] ∧
      SimpleProfile.adjust_level ⟨[1, 2, 3], 0⟩ 3 = (some 2, ⟨[1, 2, 3], 2⟩) ∧
      ((SimpleProfile.adjust_level ⟨[1, 2, 3], 0⟩ 3).2.adjust_level 3).1 = none := by
  have h := C2_adjust_level ⟨[1, 2, 3], 0⟩ 3 (by decide)
  exact ⟨by decide, h.1 (by decide), h.2.2⟩

/-- Repeated `advance_level` climbs to the top index and saturates
there. -/
lemma advanceN_current (k : Nat) :
    ∀ p : SimpleProfile, p.current < p.levels.length →
      (p.advanceN k).current = min (p.current + k) (p.levels.length - 1) := by
  induction k with
  | zero => intro p hp; simp [SimpleProfile.advanceN]; omega
  | succ k ih =>
    intro p hp
    show ((p.advance_level).2.advanceN k).current = _
    have hlev := advance_level_levels p
    have hcur := advance_level_current p
    have hinv : (p.advance_level).2.current < (p.advance_level).2.levels.length := by
      rw [hlev, hcur]; split <;> omega
    rw [ih _ hinv, hlev, hcur]
    split <;> omega

/-- C3: `advance_level` increments `current` and returns the new index
exactly when `current` is not the last index `n-1`; at `n-1` it returns
`none` and leaves the state unchanged; `k` repeated calls put `current` at
`min (current + k) (n - 1)`, i.e. strictly increasing until the top then
saturated. -/
theorem C3_advance_level (p : SimpleProfile)
    (hinv : p.current < p.levels.length) :
    ((p.advance_level.1 = some (p.current + 1) ∧
        p.advance_level.2.current = p.current + 1)
      ↔ p.current ≠ p.levels.length - 1)
    ∧ (p.current = p.levels.length - 1 → p.advance_level = (none, p))
    ∧ (∀ k, (p.advanceN k).current = min (p.current + k) (p.levels.length - 1)) := by
  refine ⟨?_, ?_, fun k => advanceN_current k p hinv⟩
  · constructor
    · rintro ⟨h1, -⟩
      unfold SimpleProfile.advance_level at h1
      split at h1
      · omega
      · simp at h1
    · intro h
      have hlt : p.current < p.levels.length - 1 := by omega
      unfold SimpleProfile.advance_level
      simp [hlt]
  · intro h
    unfold SimpleProfile.advance_level
    have : ¬ p.current < p.levels.length - 1 := by omega
    simp [this]

/-- Witness for C3 at levels `[1, 2, 3]`: from level 0, five repeated
advances saturate at the last index 2; the first advance returns level 1. -/
theorem C3_advance_level_witness :
    (0 : Nat) < ([1, 2, 3] : List ℚ).length ∧
      (SimpleProfile.advanceN ⟨[1, 2, 3], 0⟩ 5).current = 2 ∧
      (SimpleProfile.advance_level ⟨[1, 2, 3], 0⟩).1 = some 1 := by
  have h := C3_advance_level ⟨[1, 2, 3], 0⟩ (by decide)
  exact ⟨by decide, by simpa using h.2.2 5, (h.1.mpr (by decide)).1⟩

/-- C4: the index invariant `current < len` is established by construction
(`_with_vec` starts `current` at 0) on any non-empty record list and is
preserved by `adjust_level` (for every bandwidth) and by `advance_level`.
The remaining operations (`current`, `next_rate`, `is_max`,
`get_level_index` and the `Profile` accessors) are read-only: they take
the profile by value and return no updated state, so they preserve the
invariant by type. -/
theorem C4_index_invariant (C : Type) :
    (∀ vec : List (Record C), vec ≠ [] →
      (Profile.with_vec vec).simple_profile.current = 0 ∧
        (Profile.with_vec vec).simple_profile.Inv)
    ∧ (∀ (p : SimpleProfile) (bw : ℚ), p.Inv → (p.adjust_level bw).2.Inv)
    ∧ (∀ p : SimpleProfile, p.Inv → p.advance_level.2.Inv) := by
  refine ⟨?_, ?_, ?_⟩
  · intro vec hvec
    constructor
    · rfl
    · show 0 < (vec.map (·.bandwidth)).length
      simpa using List.length_pos.mpr hvec
  · intro p bw hp
    have hne : p.levels ≠ [] := by
      intro h
      unfold SimpleProfile.Inv at hp
      rw [h] at hp
      simp at hp
    have hlt := get_level_index_lt p bw hne
    unfold SimpleProfile.adjust_level
    dsimp only
    split
    · exact hlt
    · exact hp
  · intro p hp
    unfold SimpleProfile.Inv at hp ⊢
    unfold SimpleProfile.advance_level
    split <;> simp <;> omega

/-- Witness for C4: a one-record table satisfies the invariant at
construction, and the invariant survives an `adjust_level` call. -/
theorem C4_index_invariant_witness :
    ([(⟨1, (), 0⟩ : Record Unit)] : List (Record Unit)) ≠ [] ∧
      (Profile.with_vec [(⟨1, (), 0⟩ : Record Unit)]).simple_profile.Inv ∧
      (SimpleProfile.Inv ⟨[1, 2, 3], 0⟩) ∧
      (SimpleProfile.adjust_level ⟨[1, 2, 3], 0⟩ 3).2.Inv := by
  have h := C4_index_invariant Unit
  exact ⟨by simp, (h.1 [⟨1, (), 0⟩] (by simp)).2, by decide,
    h.2.1 ⟨[1, 2, 3], 0⟩ 3 (by decide)⟩

/-! ## socket.rs: the backpressure sink (`Socket`) -/

/-- One response of the transport's non-blocking `write`: either `n` bytes
were accepted, or the call would block, or it failed with an I/O error. -/
inductive WriteStep where
  | wrote (n : Nat)
  | wouldBlock
  | ioError
deriving Repr, DecidableEq

/-- The response of the transport's own `flush` call made after the buffer
empties. -/
inductive FlushResp where
  | ok
  | wouldBlock
  | ioErr
deriving Repr, DecidableEq

/-- The error values `poll_complete` can surface: the `WriteZero` error it
builds itself on a zero-byte write, or an I/O error propagated from the
transport. -/
inductive SinkErr where
  | writeZero
  | io
deriving Repr, DecidableEq

/-- Outcome of `poll_complete`: `Ok(Async::Ready(()))`,
`Ok(Async::NotReady)` or `Err(e)`. -/
inductive PollResult where
  | ready
  | notReady
  | err (e : SinkErr)
deriving Repr, DecidableEq

/-- Outcome of `start_send`: `Ok(AsyncSink::Ready)`,
`Ok(AsyncSink::NotReady(item))` with the rejected frame, or `Err(e)`. -/
inductive SendResult (F : Type) where
  | ready
  | notReady (item : F)
  | err (e : SinkErr)
deriving Repr, DecidableEq

/-- The `Socket` state: the byte buffer, the shared `AtomicUsize` byte
counter, and — as observation history for stating delivery properties —
the list of bytes handed to the transport so far, in order. -/
structure Socket where
  buffer : List Nat
  bytes : Nat
  written : List Nat
deriving Repr, DecidableEq

/-- `Socket::INITIAL_CAPACITY` = 16 KiB. -/
def Socket.INITIAL_CAPACITY : Nat := 16 * 1024

/-- `Socket::BACKPRESSURE_BOUNDARY` = `INITIAL_CAPACITY`. -/
def Socket.BACKPRESSURE_BOUNDARY : Nat := Socket.INITIAL_CAPACITY

/-- `Socket::new`: empty buffer, counter 0 (the initial 16 KiB capacity is
an allocation detail, not buffer content). -/
def Socket.new : Socket :=
  { buffer := [], bytes := 0, written := [] }

/-- One successful `net.write` reporting `n`: the counter is bumped by the
reported `n` (`fetch_add` runs before the zero check in the source) and the
first `n` bytes move from the buffer to the transport (`split_to(n)`). -/
def applyWrite (s : Socket) (n : Nat) : Socket :=
  { buffer := s.buffer.drop n
    bytes := s.bytes + n
    written := s.written ++ s.buffer.take n }

/-- `Socket::poll_complete`: write the buffer out until empty, consuming
transport responses in order (an exhausted schedule behaves like
would-block); a zero-byte write while the buffer is non-empty is the
`WriteZero` error; after the buffer empties, flush the underlying
transport. -/
def poll_complete (fl : FlushResp) : Socket → List WriteStep → PollResult × Socket
  | s, sched =>
    if s.buffer.isEmpty then
      match fl with
      | .ok => (.ready, s)
      | .wouldBlock => (.notReady, s)
      | .ioErr => (.err .io, s)
    else
      match sched with
      | [] => (.notReady, s)
      | .wouldBlock :: _ => (.notReady, s)
      | .ioError :: _ => (.err .io, s)
      | .wrote n :: rest =>
        if n = 0 then (.err .writeZero, applyWrite s n)
        else poll_complete fl (applyWrite s n) rest

/-- `Socket::start_send`: if the buffer is at or over the boundary, first
attempt an eager flush, propagating its error (`?`); if the buffer is
still at or over the boundary, return the frame as `NotReady`; otherwise
encode the frame (external codec capability) onto the buffer and report
`Ready`. -/
def start_send {F : Type} (encode : F → List Nat) (fl : FlushResp)
    (s : Socket) (sched : List WriteStep) (item : F) : SendResult F × Socket :=
  if Socket.BACKPRESSURE_BOUNDARY ≤ s.buffer.length then
    match poll_complete fl s sched with
    | (.err e, s1) => (.err e, s1)
    | (_, s1) =>
      if Socket.BACKPRESSURE_BOUNDARY ≤ s1.buffer.length then
        (.notReady item, s1)
      else
        (.ready, { s1 with buffer := s1.buffer ++ encode item })
  else
    (.ready, { s with buffer := s.buffer ++ encode item })

/-- A transport schedule is feasible from a state when every write that
the flush loop actually consumes reports at most the bytes it was offered
(what a real `write` guarantees). -/
def feasible : Socket → List WriteStep → Bool
  | s, sched =>
    if s.buffer.isEmpty then true
    else
      match sched with
      | [] => true
      | .wouldBlock :: _ => true
      | .ioError :: _ => true
      | .wrote n :: rest =>
        if n = 0 then true
        else decide (n ≤ s.buffer.length) && feasible (applyWrite s n) rest

/-! ### Step equations for `poll_complete` and `feasible` -/

lemma poll_empty_ok (s : Socket) (sched : List WriteStep) (h : s.buffer = []) :
    poll_complete .ok s sched = (.ready, s) := by
  rw [poll_complete.eq_def]; simp [h]

lemma poll_empty_wouldBlock (s : Socket) (sched : List WriteStep)
    (h : s.buffer = []) : poll_complete .wouldBlock s sched = (.notReady, s) := by
  rw [poll_complete.eq_def]; simp [h]

lemma poll_empty_ioErr (s : Socket) (sched : List WriteStep)
    (h : s.buffer = []) : poll_complete .ioErr s sched = (.err .io, s) := by
  rw [poll_complete.eq_def]; simp [h]

lemma poll_nonempty_nil (fl : FlushResp) (s : Socket) (h : s.buffer ≠ []) :
    poll_complete fl s [] = (.notReady, s) := by
  rw [poll_complete.eq_def]; simp [h]

lemma poll_nonempty_wouldBlock (fl : FlushResp) (s : Socket)
    (rest : List WriteStep) (h : s.buffer ≠ []) :
    poll_complete fl s (.wouldBlock :: rest) = (.notReady, s) := by
  rw [poll_complete.eq_def]; simp [h]

lemma poll_nonempty_ioError (fl : FlushResp) (s : Socket)
    (rest : List WriteStep) (h : s.buffer ≠ []) :
    poll_complete fl s (.ioError :: rest) = (.err .io, s) := by
  rw [poll_complete.eq_def]; simp [h]

lemma poll_wrote_zero (fl : FlushResp) (s : Socket) (rest : List WriteStep)
    (h : s.buffer ≠ []) :
    poll_complete fl s (.wrote 0 :: rest) = (.err .writeZero, applyWrite s 0) := by
  rw [poll_complete.eq_def]; simp [h]

lemma poll_wrote_pos (fl : FlushResp) (s : Socket) (n : Nat)
    (rest : List WriteStep) (h : s.buffer ≠ []) (hn : n ≠ 0) :
    poll_complete fl s (.wrote n :: rest) =
      poll_complete fl (applyWrite s n) rest := by
  rw [poll_complete.eq_def]; simp [h, hn]

lemma feasible_wrote_pos (s : Socket) (n : Nat) (rest : List WriteStep)
    (h : s.buffer ≠ []) (hn : n ≠ 0) :
    feasible s (.wrote n :: rest) =
      (decide (n ≤ s.buffer.length) && feasible (applyWrite s n) rest) := by
  rw [feasible.eq_def]; simp [h, hn]

/-- The flush loop terminating on an empty buffer only returns what the
final transport `flush` says. -/
lemma poll_empty_cases (fl : FlushResp) (s : Socket) (sched : List WriteStep)
    (h : s.buffer = []) :
    (poll_complete fl s sched).1 ≠ .err .writeZero ∧
      (poll_complete fl s sched).2 = s := by
  cases fl
  · rw [poll_empty_ok s sched h]; exact ⟨by simp, rfl⟩
  · rw [poll_empty_wouldBlock s sched h]; exact ⟨by simp, rfl⟩
  · rw [poll_empty_ioErr s sched h]; exact ⟨by simp, rfl⟩

/-- The flush loop's `WriteZero` error arises exactly from a zero-byte
write on a non-empty buffer. -/
lemma poll_writeZero_inv :
    ∀ (sched : List WriteStep) (fl : FlushResp) (s : Socket),
      (poll_complete fl s sched).1 = .err .writeZero →
      WriteStep.wrote 0 ∈ sched ∧ s.buffer ≠ [] ∧
        (poll_complete fl s sched).2.buffer ≠ [] := by
  intro sched
  induction sched with
  | nil =>
    intro fl s h
    by_cases hb : s.buffer = []
    · exact absurd h (poll_empty_cases fl s [] hb).1
    · rw [poll_nonempty_nil fl s hb] at h; simp at h
  | cons step rest ih =>
    intro fl s h
    by_cases hb : s.buffer = []
    · exact absurd h (poll_empty_cases fl s (step :: rest) hb).1
    · cases step with
      | wouldBlock => rw [poll_nonempty_wouldBlock fl s rest hb] at h; simp at h
      | ioError => rw [poll_nonempty_ioError fl s rest hb] at h; simp at h
      | wrote n =>
        by_cases hn : n = 0
        · subst hn
          rw [poll_wrote_zero fl s rest hb]
          refine ⟨by simp, hb, ?_⟩
          simpa [applyWrite] using hb
        · rw [poll_wrote_pos fl s n rest hb hn] at h ⊢
          obtain ⟨hm, -, hfin⟩ := ih fl (applyWrite s n) h
          exact ⟨List.mem_cons_of_mem _ hm, hb, hfin⟩

/-- The flush loop surfaces an I/O error only when the transport itself
reported one (in a write response or in the final flush). -/
lemma poll_io_inv :
    ∀ (sched : List WriteStep) (fl : FlushResp) (s : Socket),
      (poll_complete fl s sched).1 = .err .io →
      WriteStep.ioError ∈ sched ∨ fl = .ioErr := by
  intro sched
  induction sched with
  | nil =>
    intro fl s h
    by_cases hb : s.buffer = []
    · cases fl
      · rw [poll_empty_ok s [] hb] at h; simp at h
      · rw [poll_empty_wouldBlock s [] hb] at h; simp at h
      · exact Or.inr rfl
    · rw [poll_nonempty_nil fl s hb] at h; simp at h
  | cons step rest ih =>
    intro fl s h
    by_cases hb : s.buffer = []
    · cases fl
      · rw [poll_empty_ok s (step :: rest) hb] at h; simp at h
      · rw [poll_empty_wouldBlock s (step :: rest) hb] at h; simp at h
      · exact Or.inr rfl
    · cases step with
      | wouldBlock => rw [poll_nonempty_wouldBlock fl s rest hb] at h; simp at h
      | ioError => exact Or.inl (by simp)
      | wrote n =>
        by_cases hn : n = 0
        · subst hn; rw [poll_wrote_zero fl s rest hb] at h; simp at h
        · rw [poll_wrote_pos fl s n rest hb hn] at h
          rcases ih fl (applyWrite s n) h with hm | hfl
          · exact Or.inl (List.mem_cons_of_mem _ hm)
          · exact Or.inr hfl

/-! ### Claim C6 -/

/-- C6: during `poll_complete`, a transport write reporting 0 bytes while
the buffer is non-empty makes the flush return the `WriteZero` error; and
conversely the `WriteZero` error — the only error the write loop builds
itself rather than propagating from the transport — arises only from such
a zero-byte write (the remaining loop error, `io`, exists only when the
transport itself reported an I/O failure). -/
theorem C6_flush_write_zero :
    (∀ (fl : FlushResp) (s : Socket) (rest : List WriteStep), s.buffer ≠ [] →
      (poll_complete fl s (.wrote 0 :: rest)).1 = .err .writeZero)
    ∧ (∀ (fl : FlushResp) (s : Socket) (sched : List WriteStep),
        (poll_complete fl s sched).1 = .err .writeZero →
        WriteStep.wrote 0 ∈ sched ∧ s.buffer ≠ [] ∧
          (poll_complete fl s sched).2.buffer ≠ [])
    ∧ (∀ (fl : FlushResp) (s : Socket) (sched : List WriteStep),
        (poll_complete fl s sched).1 = .err .io →
        WriteStep.ioError ∈ sched ∨ fl = .ioErr) := by
  refine ⟨?_, fun fl s sched => poll_writeZero_inv sched fl s,
    fun fl s sched => poll_io_inv sched fl s⟩
  intro fl s rest h
  rw [poll_wrote_zero fl s rest h]

/-- Witness for C6: a zero-byte write on the one-byte buffer `[5]` errors
with `WriteZero`. -/
theorem C6_flush_write_zero_witness :
    (Socket.mk [5] 0 []).buffer ≠ [] ∧
      (poll_complete .ok ⟨[5], 0, []⟩ [.wrote 0]).1 = .err .writeZero :=
  ⟨by simp, C6_flush_write_zero.1 .ok ⟨[5], 0, []⟩ [] (by simp)⟩

/-! ### Counter and delivery lemmas for C7 -/

/-- The byte counter never decreases across a flush. -/
lemma poll_bytes_mono :
    ∀ (sched : List WriteStep) (fl : FlushResp) (s : Socket),
      s.bytes ≤ (poll_complete fl s sched).2.bytes := by
  intro sched
  induction sched with
  | nil =>
    intro fl s
    by_cases hb : s.buffer = []
    · rw [(poll_empty_cases fl s [] hb).2]
    · rw [poll_nonempty_nil fl s hb]
  | cons step rest ih =>
    intro fl s
    by_cases hb : s.buffer = []
    · rw [(poll_empty_cases fl s (step :: rest) hb).2]
    · cases step with
      | wouldBlock => rw [poll_nonempty_wouldBlock fl s rest hb]
      | ioError => rw [poll_nonempty_ioError fl s rest hb]
      | wrote n =>
        by_cases hn : n = 0
        · subst hn; rw [poll_wrote_zero fl s rest hb]; simp [applyWrite]
        · rw [poll_wrote_pos fl s n rest hb hn]
          calc s.bytes ≤ (applyWrite s n).bytes := by simp [applyWrite]
            _ ≤ _ := ih fl (applyWrite s n)

/-- The byte counter never decreases across an enqueue. -/
lemma start_send_bytes_mono {F : Type} (encode : F → List Nat)
    (fl : FlushResp) (s : Socket) (sched : List WriteStep) (item : F) :
    s.bytes ≤ (start_send encode fl s sched item).2.bytes := by
  unfold start_send
  split
  · have h := poll_bytes_mono sched fl s
    rcases hps : poll_complete fl s sched with ⟨r, s1⟩
    rw [hps] at h
    cases r <;> simp only [] <;> first
      | (split <;> simpa using h)
      | simpa using h
  · simp

/-- Feasible flushes move bytes verbatim: the transport-observed history
is extended by exactly the bytes removed from the front of the buffer,
and the counter is bumped by exactly their number. -/
lemma poll_delivery :
    ∀ (sched : List WriteStep) (fl : FlushResp) (s : Socket),
      feasible s sched = true →
      ∃ d : List Nat,
        (poll_complete fl s sched).2.written = s.written ++ d ∧
        s.buffer = d ++ (poll_complete fl s sched).2.buffer ∧
        (poll_complete fl s sched).2.bytes = s.bytes + d.length := by
  intro sched
  induction sched with
  | nil =>
    intro fl s _
    by_cases hb : s.buffer = []
    · rw [(poll_empty_cases fl s [] hb).2]; exact ⟨[], by simp, by simp [hb], by simp⟩
    · rw [poll_nonempty_nil fl s hb]; exact ⟨[], by simp, by simp, by simp⟩
  | cons step rest ih =>
    intro fl s hfeas
    by_cases hb : s.buffer = []
    · rw [(poll_empty_cases fl s (step :: rest) hb).2]
      exact ⟨[], by simp, by simp [hb], by simp⟩
    · cases step with
      | wouldBlock =>
        rw [poll_nonempty_wouldBlock fl s rest hb]
        exact ⟨[], by simp, by simp, by simp⟩
      | ioError =>
        rw [poll_nonempty_ioError fl s rest hb]
        exact ⟨[], by simp, by simp, by simp⟩
      | wrote n =>
        by_cases hn : n = 0
        · subst hn
          rw [poll_wrote_zero fl s rest hb]
          exact ⟨[], by simp [applyWrite], by simp [applyWrite], by simp [applyWrite]⟩
        · rw [feasible_wrote_pos s n rest hb hn] at hfeas
          rw [Bool.and_eq_true, decide_eq_true_eq] at hfeas
          obtain ⟨hlen, hfeas'⟩ := hfeas
          rw [poll_wrote_pos fl s n rest hb hn]
          obtain ⟨d, hw, hbuf, hbytes⟩ := ih fl (applyWrite s n) hfeas'
          refine ⟨s.buffer.take n ++ d, ?_, ?_, ?_⟩
          · rw [hw]; simp [applyWrite]
          · conv_lhs => rw [← s.buffer.take_append_drop n]
            rw [List.append_assoc, ← hbuf]; rfl
          · rw [hbytes]
            simp [applyWrite, List.length_take]
            omega

/-! ### Claim C7 -/

/-- C7: the throughput counter starts at 0 when the sink is created, is
never decremented by a flush or an enqueue, and on a feasible transport
schedule each flush extends the delivered byte history by exactly the
bytes removed from the front of the buffer while adding their count to
the counter — so the counter is non-decreasing and stays equal to the
cumulative number of bytes delivered to the transport. -/
theorem C7_throughput_counter (F : Type) :
    Socket.new.bytes = 0 ∧ Socket.new.written = []
    ∧ (∀ (fl : FlushResp) (s : Socket) (sched : List WriteStep),
        s.bytes ≤ (poll_complete fl s sched).2.bytes)
    ∧ (∀ (encode : F → List Nat) (fl : FlushResp) (s : Socket)
        (sched : List WriteStep) (item : F),
        s.bytes ≤ (start_send encode fl s sched item).2.bytes)
    ∧ (∀ (fl : FlushResp) (s : Socket) (sched : List WriteStep),
        feasible s sched = true →
        ∃ d : List Nat,
          (poll_complete fl s sched).2.written = s.written ++ d ∧
          s.buffer = d ++ (poll_complete fl s sched).2.buffer ∧
          (poll_complete fl s sched).2.bytes = s.bytes + d.length)
    ∧ (∀ (fl : FlushResp) (s : Socket) (sched : List WriteStep),
        feasible s sched = true → s.bytes = s.written.length →
        (poll_complete fl s sched).2.bytes =
          (poll_complete fl s sched).2.written.length) := by
  refine ⟨rfl, rfl, fun fl s sched => poll_bytes_mono sched fl s,
    fun encode fl s sched item => start_send_bytes_mono encode fl s sched item,
    fun fl s sched h => poll_delivery sched fl s h, ?_⟩
  intro fl s sched hfeas hinv
  obtain ⟨d, hw, -, hbytes⟩ := poll_delivery sched fl s hfeas
  rw [hbytes, hw, List.length_append, hinv]

/-- Witness for C7: flushing the buffer `[1, 2, 3]` through writes of 2
then 1 bytes keeps counter = delivered bytes (3 after the flush). -/
theorem C7_throughput_counter_witness :
    feasible ⟨[1, 2, 3], 0, []⟩ [.wrote 2, .wrote 1] = true ∧
      (0 : Nat) = ([] : List Nat).length ∧
      (poll_complete .ok ⟨[1, 2, 3], 0, []⟩ [.wrote 2, .wrote 1]).2.bytes =
        (poll_complete .ok ⟨[1, 2, 3], 0, []⟩ [.wrote 2, .wrote 1]).2.written.length :=
  ⟨by decide, rfl,
    (C7_throughput_counter Unit).2.2.2.2.2 .ok ⟨[1, 2, 3], 0, []⟩
      [.wrote 2, .wrote 1] (by decide) rfl⟩

/-! ### Claim C10 -/

/-- C10: when the buffer is at or over the boundary and the eager flush
inside `start_send` fails, the error is propagated as the enqueue's
result: the offered frame is neither encoded into the buffer nor handed
back to the caller — the post state is exactly the flush's post state and
the result carries no frame. -/
theorem C10_enqueue_error_drops_frame (F : Type) (encode : F → List Nat)
    (fl : FlushResp) (s : Socket) (sched : List WriteStep) (item : F)
    (e : SinkErr)
    (hb : Socket.BACKPRESSURE_BOUNDARY ≤ s.buffer.length)
    (he : (poll_complete fl s sched).1 = .err e) :
    start_send encode fl s sched item = (.err e, (poll_complete fl s sched).2) := by
  rcases hps : poll_complete fl s sched with ⟨r, s1⟩
  rw [hps] at he
  simp only [] at he
  subst he
  unfold start_send
  rw [if_pos hb, hps]

/-- Witness for C10: a zero-byte write during the eager flush of a full
buffer makes the enqueue error out and drop the frame. -/
theorem C10_enqueue_error_drops_frame_witness :
    Socket.BACKPRESSURE_BOUNDARY ≤ (List.replicate 16384 (0 : Nat)).length ∧
      (poll_complete .ok ⟨List.replicate 16384 0, 0, []⟩ [.wrote 0]).1 =
        .err .writeZero ∧
      start_send (fun n : Nat => [n]) .ok ⟨List.replicate 16384 0, 0, []⟩
          [.wrote 0] 37 =
        (.err .writeZero,
          (poll_complete .ok ⟨List.replicate 16384 0, 0, []⟩ [.wrote 0]).2) := by
  have h1 : Socket.BACKPRESSURE_BOUNDARY ≤ (List.replicate 16384 (0 : Nat)).length := by
    rw [List.length_replicate]; decide
  have hbuf : (Socket.mk (List.replicate 16384 (0 : Nat)) 0 []).buffer ≠ [] :=
    List.length_pos.mp (by rw [List.length_replicate]; decide)
  have h2 : (poll_complete .ok ⟨List.replicate 16384 0, 0, []⟩ [.wrote 0]).1 =
      .err .writeZero := by
    rw [poll_wrote_zero .ok ⟨List.replicate 16384 0, 0, []⟩ [] hbuf]
  exact ⟨h1, h2,
    C10_enqueue_error_drops_frame Nat (fun n => [n]) .ok
      ⟨List.replicate 16384 0, 0, []⟩ [.wrote 0] 37 .writeZero h1 h2⟩

/-! ### Claim C5 -/

/-- Counterexample to C5 as stated: with the buffer at the boundary and a
transport whose write reports 0 bytes, the eager flush errors; the
buffered count is still at the boundary afterwards, yet `start_send` does
not return the frame as `NotReady` — it propagates the error (the case
that claim C10 describes). -/
theorem C5_counterexample :
    Socket.BACKPRESSURE_BOUNDARY ≤ (List.replicate 16384 (0 : Nat)).length ∧
      Socket.BACKPRESSURE_BOUNDARY ≤
        (poll_complete .ok ⟨List.replicate 16384 0, 0, []⟩ [.wrote 0]).2.buffer.length ∧
      (start_send (fun n : Nat => [n]) .ok ⟨List.replicate 16384 0, 0, []⟩
          [.wrote 0] 37).1 ≠ .notReady 37 := by
  have hlen : (List.replicate 16384 (0 : Nat)).length = 16384 :=
    List.length_replicate 16384 0
  have h1 : Socket.BACKPRESSURE_BOUNDARY ≤ (List.replicate 16384 (0 : Nat)).length := by
    rw [hlen]; decide
  have hbuf : (Socket.mk (List.replicate 16384 (0 : Nat)) 0 []).buffer ≠ [] :=
    List.length_pos.mp (by rw [hlen]; decide)
  have hpoll : poll_complete .ok ⟨List.replicate 16384 0, 0, []⟩ [.wrote 0] =
      (.err .writeZero, applyWrite ⟨List.replicate 16384 0, 0, []⟩ 0) :=
    poll_wrote_zero .ok ⟨List.replicate 16384 0, 0, []⟩ [] hbuf
  refine ⟨h1, ?_, ?_⟩
  · rw [hpoll]
    simp only [applyWrite, List.drop_zero]
    exact h1
  · unfold start_send
    rw [if_pos h1, hpoll]
    simp

/-- C5 amended: `start_send` below the boundary encodes the frame and
reports `Ready` without any flush attempt (the state changes only by the
appended encoding); at or over the boundary it attempts the eager flush
first, and — provided that flush did not itself return an error — if the
buffer is still at or over the boundary it hands the same frame back as
`NotReady`, the state being exactly the flush's post state. -/
theorem C5_enqueue_backpressure (F : Type) (encode : F → List Nat)
    (fl : FlushResp) (s : Socket) (sched : List WriteStep) (item : F) :
    (s.buffer.length < Socket.BACKPRESSURE_BOUNDARY →
      start_send encode fl s sched item =
        (.ready, { s with buffer := s.buffer ++ encode item }))
    ∧ (Socket.BACKPRESSURE_BOUNDARY ≤ s.buffer.length →
        ∀ (r : PollResult) (s1 : Socket), poll_complete fl s sched = (r, s1) →
          (∀ e, r ≠ .err e) →
          Socket.BACKPRESSURE_BOUNDARY ≤ s1.buffer.length →
          start_send encode fl s sched item = (.notReady item, s1)) := by
  constructor
  · intro hlt
    unfold start_send
    rw [if_neg (by omega)]
  · intro hge r s1 hps hr h1
    unfold start_send
    rw [if_pos hge, hps]
    cases r with
    | ready => simp only []; rw [if_pos h1]
    | notReady => simp only []; rw [if_pos h1]
    | err e => exact absurd rfl (hr e)

/-- Witness for the amended C5: an empty sink accepts a frame with no
flush, and a sink at the boundary whose flush would block rejects the
frame as `NotReady` with the state unchanged. -/
theorem C5_enqueue_backpressure_witness :
    Socket.new.buffer.length < Socket.BACKPRESSURE_BOUNDARY ∧
      start_send (fun n : Nat => [n]) .ok Socket.new [] 7 =
        (.ready, { Socket.new with buffer := [7] }) ∧
      start_send (fun n : Nat => [n]) .ok ⟨List.replicate 16384 0, 0, []⟩ [] 7 =
        (.notReady 7, ⟨List.replicate 16384 0, 0, []⟩) := by
  have hlen : (List.replicate 16384 (0 : Nat)).length = 16384 :=
    List.length_replicate 16384 0
  have h1 : Socket.BACKPRESSURE_BOUNDARY ≤
      (Socket.mk (List.replicate 16384 (0 : Nat)) 0 []).buffer.length := by
    show Socket.BACKPRESSURE_BOUNDARY ≤ (List.replicate 16384 (0 : Nat)).length
    rw [hlen]; decide
  have hbuf : (Socket.mk (List.replicate 16384 (0 : Nat)) 0 []).buffer ≠ [] :=
    List.length_pos.mp (by rw [hlen]; decide)
  refine ⟨by decide, ?_, ?_⟩
  · exact (C5_enqueue_backpressure Nat (fun n => [n]) .ok Socket.new [] 7).1
      (by decide)
  · exact (C5_enqueue_backpressure Nat (fun n => [n]) .ok
        ⟨List.replicate 16384 0, 0, []⟩ [] 7).2 h1 .notReady
      ⟨List.replicate 16384 0, 0, []⟩
      (poll_nonempty_nil .ok ⟨List.replicate 16384 0, 0, []⟩ hbuf)
      (by intro e h; cases h) h1

/-! ## socket.rs: the decode state machine (`FramedRead`) -/

/-- One response of the transport's `read_buf`: a chunk of bytes appended
to the buffer (the empty chunk is the zero-byte read signalling
end-of-stream) or would-block. -/
inductive ReadStep where
  | chunk (data : List Nat)
  | wouldBlock
deriving Repr, DecidableEq

/-- Outcome of one `FramedRead::poll`: `Ready(Some frame)`,
`Ready(None)` (stream termination), `NotReady`, or a decoder error. -/
inductive PollRead (F : Type) where
  | ready (frame : Option F)
  | notReady
  | decErr
deriving Repr, DecidableEq

/-- The `FramedRead` state: the `eof` and `is_readable` flags and the read
buffer.  The transport and decoder are parameters of `fr_poll`. -/
structure FramedRead where
  eof : Bool
  is_readable : Bool
  buffer : List Nat
deriving Repr, DecidableEq

/-- `FramedRead::new`. -/
def FramedRead.new : FramedRead :=
  { eof := false, is_readable := false, buffer := [] }

/-- The loop body of `FramedRead::poll` for the `is_readable && eof`
state: one `decode_eof` call; its result (one last frame or nothing) is
returned as `Ready` and the produced sequence ends here. -/
def frEof {F : Type} (deof : List Nat → Except Unit (Option F × List Nat))
    (fr : FramedRead) (sched : List ReadStep) :
    PollRead F × FramedRead × List ReadStep :=
  match deof fr.buffer with
  | .error _ => (.decErr, fr, sched)
  | .ok (f?, b') => (.ready f?, { fr with buffer := b' }, sched)

/-- The read phase of `FramedRead::poll`'s loop (entered with
`is_readable = false`): reserve room, read from the transport, then
continue at the top of the loop.  Transport reads are consumed from the
schedule in order; an exhausted schedule behaves like would-block; the
empty chunk is the zero-byte read that sets `eof`.  The loop iteration
after the read is inlined (`fr_run` is the Rust `loop` unrolled at its
back edge), so the recursion is structural on the schedule. -/
def fr_run {F : Type} (dec deof : List Nat → Except Unit (Option F × List Nat)) :
    FramedRead → List ReadStep → PollRead F × FramedRead × List ReadStep
  | fr, [] => (.notReady, fr, [])
  | fr, .wouldBlock :: rest => (.notReady, fr, rest)
  | fr, .chunk data :: rest =>
    let fr1 : FramedRead :=
      if data = [] then ⟨true, true, fr.buffer⟩
      else ⟨fr.eof, true, fr.buffer ++ data⟩
    if fr1.eof then frEof deof fr1 rest
    else
      match dec fr1.buffer with
      | .error _ => (.decErr, fr1, rest)
      | .ok (some f, b') => (.ready (some f), { fr1 with buffer := b' }, rest)
      | .ok (none, b') => fr_run dec deof ⟨fr1.eof, false, b'⟩ rest

/-- `FramedRead::poll`.  `dec` models `Decoder::decode` (optional frame
plus the updated buffer, or a decoder error), `deof` models
`Decoder::decode_eof`.  Returns the poll result, the updated state, and
the unconsumed read schedule.  (The source's `assert!(!self.eof)` is the
invariant that `eof` implies `is_readable`, which holds from
`FramedRead::new`.) -/
def fr_poll {F : Type} (dec deof : List Nat → Except Unit (Option F × List Nat))
    (fr : FramedRead) (sched : List ReadStep) :
    PollRead F × FramedRead × List ReadStep :=
  if fr.is_readable then
    if fr.eof then frEof deof fr sched
    else
      match dec fr.buffer with
      | .error _ => (.decErr, fr, sched)
      | .ok (some f, b') => (.ready (some f), { fr with buffer := b' }, sched)
      | .ok (none, b') => fr_run dec deof ⟨fr.eof, false, b'⟩ sched
  else fr_run dec deof fr sched

/-! ### Step equations for `fr_poll` -/

section FrPoll

variable {F : Type} (dec deof : List Nat → Except Unit (Option F × List Nat))

lemma fr_poll_eof_ok (fr : FramedRead) (sched : List ReadStep)
    (f? : Option F) (b' : List Nat) (h1 : fr.is_readable = true)
    (h2 : fr.eof = true) (h3 : deof fr.buffer = .ok (f?, b')) :
    fr_poll dec deof fr sched = (.ready f?, { fr with buffer := b' }, sched) := by
  simp [fr_poll, frEof, h1, h2, h3]

lemma fr_poll_dec_some (fr : FramedRead) (sched : List ReadStep)
    (f : F) (b' : List Nat) (h1 : fr.is_readable = true)
    (h2 : fr.eof = false) (h3 : dec fr.buffer = .ok (some f, b')) :
    fr_poll dec deof fr sched =
      (.ready (some f), { fr with buffer := b' }, sched) := by
  simp [fr_poll, h1, h2, h3]

lemma fr_poll_dec_none (fr : FramedRead) (sched : List ReadStep)
    (b' : List Nat) (h1 : fr.is_readable = true) (h2 : fr.eof = false)
    (h3 : dec fr.buffer = .ok (none, b')) :
    fr_poll dec deof fr sched = fr_run dec deof ⟨false, false, b'⟩ sched := by
  simp [fr_poll, h1, h2, h3]

lemma fr_poll_not_readable (fr : FramedRead) (sched : List ReadStep)
    (h : fr.is_readable = false) :
    fr_poll dec deof fr sched = fr_run dec deof fr sched := by
  simp [fr_poll, h]

lemma fr_run_eof_chunk (fr : FramedRead) (rest : List ReadStep) :
    fr_run dec deof fr (.chunk [] :: rest) =
      frEof deof ⟨true, true, fr.buffer⟩ rest := by
  simp [fr_run]

lemma fr_run_chunk_not_eof (fr : FramedRead) (data : List Nat)
    (rest : List ReadStep) (hd : data ≠ []) (he : fr.eof = false) :
    fr_run dec deof fr (.chunk data :: rest) =
      (match dec (fr.buffer ++ data) with
        | .error _ => (.decErr, ⟨false, true, fr.buffer ++ data⟩, rest)
        | .ok (some f, b') => (.ready (some f), ⟨false, true, b'⟩, rest)
        | .ok (none, b') => fr_run dec deof ⟨false, false, b'⟩ rest) := by
  rw [fr_run]
  simp only [hd, if_neg, he, ite_false]
  rcases dec (fr.buffer ++ data) with u | ⟨f? , b'⟩
  · simp
  · cases f? <;> simp

/-- `frEof` keeps the eof flag of its input state. -/
lemma frEof_eof (fr : FramedRead) (sched : List ReadStep) :
    (frEof deof fr sched).2.1.eof = fr.eof := by
  unfold frEof
  rcases deof fr.buffer with u | ⟨f?, b'⟩ <;> rfl

/-- Once set, the end-of-stream flag survives the read phase. -/
lemma fr_run_eof_mono :
    ∀ (sched : List ReadStep) (fr : FramedRead), fr.eof = true →
      (fr_run dec deof fr sched).2.1.eof = true := by
  intro sched
  induction sched with
  | nil => intro fr h; simpa [fr_run] using h
  | cons step rest ih =>
    intro fr h
    cases step with
    | wouldBlock => simpa [fr_run] using h
    | chunk data =>
      by_cases hd : data = []
      · subst hd
        rw [fr_run_eof_chunk dec deof fr rest]
        rw [frEof_eof deof ⟨true, true, fr.buffer⟩ rest]
      · have heq : fr_run dec deof fr (.chunk data :: rest) =
            frEof deof ⟨fr.eof, true, fr.buffer ++ data⟩ rest := by
          rw [fr_run]
          simp [hd, h]
        rw [heq, frEof_eof deof ⟨fr.eof, true, fr.buffer ++ data⟩ rest]
        exact h

/-- Once set, the end-of-stream flag survives every poll. -/
lemma fr_poll_eof_mono (sched : List ReadStep) (fr : FramedRead)
    (h : fr.eof = true) : (fr_poll dec deof fr sched).2.1.eof = true := by
  by_cases hr : fr.is_readable = true
  · have heq : fr_poll dec deof fr sched = frEof deof fr sched := by
      simp [fr_poll, hr, h]
    rw [heq, frEof_eof deof fr sched]
    exact h
  · have hr' : fr.is_readable = false := by simpa using hr
    rw [fr_poll_not_readable dec deof fr sched hr']
    exact fr_run_eof_mono dec deof sched fr h

end FrPoll

/-! ### Claim C9 -/

/-- C9: the end-of-stream flag is never cleared by any poll; while flagged
(and readable) the reader answers each poll directly with the
end-of-stream-aware decode's result — one last (possibly partial) frame
or nothing — consuming no further reads; and once the decoder has nothing
more to yield, every subsequent poll returns `Ready(None)`, the stream
termination signal, leaving the state unchanged, so no further frames
are ever produced. -/
theorem C9_eof_terminal (F : Type)
    (dec deof : List Nat → Except Unit (Option F × List Nat)) :
    (∀ (fr : FramedRead) (sched : List ReadStep), fr.eof = true →
      (fr_poll dec deof fr sched).2.1.eof = true)
    ∧ (∀ (fr : FramedRead) (sched : List ReadStep) (f? : Option F)
        (b' : List Nat),
        fr.eof = true → fr.is_readable = true → deof fr.buffer = .ok (f?, b') →
        fr_poll dec deof fr sched = (.ready f?, ⟨true, true, b'⟩, sched))
    ∧ (∀ (fr : FramedRead) (sched : List ReadStep),
        (∀ b, deof b = .ok (none, b)) →
        fr.eof = true → fr.is_readable = true →
        fr_poll dec deof fr sched = (.ready none, fr, sched)) := by
  refine ⟨fun fr sched h => fr_poll_eof_mono dec deof sched fr h, ?_, ?_⟩
  · intro fr sched f? b' h1 h2 h3
    rw [fr_poll_eof_ok dec deof fr sched f? b' h2 h1 h3]
    cases fr
    simp_all
  · intro fr sched hstall h1 h2
    rw [fr_poll_eof_ok dec deof fr sched none fr.buffer h2 h1 (hstall fr.buffer)]

/-- Witness for C9 with the decoder that has nothing more to yield: in the
end-of-stream state every poll returns the termination signal. -/
theorem C9_eof_terminal_witness :
    (FramedRead.mk true true [4]).eof = true ∧
      (∀ b, (fun b : List Nat => (.ok (none, b) : Except Unit (Option Nat × List Nat))) b
        = .ok (none, b)) ∧
      fr_poll (fun b : List Nat => (.ok (none, b) : Except Unit (Option Nat × List Nat)))
          (fun b : List Nat => (.ok (none, b) : Except Unit (Option Nat × List Nat)))
          ⟨true, true, [4]⟩ [.chunk [9]] =
        (.ready none, ⟨true, true, [4]⟩, [.chunk [9]]) :=
  ⟨rfl, fun _ => rfl,
    (C9_eof_terminal Nat (fun b => .ok (none, b)) (fun b => .ok (none, b))).2.2
      ⟨true, true, [4]⟩ [.chunk [9]] (fun _ => rfl) rfl rfl⟩

/-! ### Machinery for C8: driving the sink and collecting the stream -/

/-- One caller-side operation on the sink: offer a frame (`start_send`) or
flush (`poll_complete`), each against its transport responses. -/
inductive SinkOp (F : Type) where
  | send (item : F) (sched : List WriteStep) (fl : FlushResp)
  | flush (sched : List WriteStep) (fl : FlushResp)

/-- Run a sequence of sink operations from a state; returns the final
state and the frames the sink accepted (`Ready`), in enqueue order. -/
def runOps {F : Type} (encode : F → List Nat) :
    Socket → List (SinkOp F) → Socket × List F
  | s, [] => (s, [])
  | s, .send item sched fl :: rest =>
    match start_send encode fl s sched item with
    | (.ready, s1) =>
      let out := runOps encode s1 rest
      (out.1, item :: out.2)
    | (_, s1) => runOps encode s1 rest
  | s, .flush sched fl :: rest => runOps encode (poll_complete fl s sched).2 rest

/-- Drain the frame stream produced by repeated polls: collect frames
until the reader yields anything other than `Ready(Some _)` (or fuel runs
out). -/
def fr_collect {F : Type} (dec deof : List Nat → Except Unit (Option F × List Nat)) :
    Nat → FramedRead → List ReadStep → List F
  | 0, _, _ => []
  | fuel + 1, fr, sched =>
    match fr_poll dec deof fr sched with
    | (.ready (some f), fr', sched') => f :: fr_collect dec deof fuel fr' sched'
    | _ => []

/-- A flush never loses or duplicates bytes: transport history plus
remaining buffer is invariant. -/
lemma poll_written_buffer :
    ∀ (sched : List WriteStep) (fl : FlushResp) (s : Socket),
      (poll_complete fl s sched).2.written ++ (poll_complete fl s sched).2.buffer
        = s.written ++ s.buffer := by
  intro sched
  induction sched with
  | nil =>
    intro fl s
    by_cases hb : s.buffer = []
    · rw [(poll_empty_cases fl s [] hb).2]
    · rw [poll_nonempty_nil fl s hb]
  | cons step rest ih =>
    intro fl s
    by_cases hb : s.buffer = []
    · rw [(poll_empty_cases fl s (step :: rest) hb).2]
    · cases step with
      | wouldBlock => rw [poll_nonempty_wouldBlock fl s rest hb]
      | ioError => rw [poll_nonempty_ioError fl s rest hb]
      | wrote n =>
        by_cases hn : n = 0
        · subst hn
          rw [poll_wrote_zero fl s rest hb]
          simp [applyWrite]
        · rw [poll_wrote_pos fl s n rest hb hn]
          rw [ih fl (applyWrite s n)]
          simp [applyWrite]

/-- An enqueue extends history-plus-buffer by the frame's encoding exactly
when it reports `Ready`, and leaves it unchanged otherwise. -/
lemma start_send_written_buffer {F : Type} (encode : F → List Nat)
    (fl : FlushResp) (s : Socket) (sched : List WriteStep) (item : F) :
    ((start_send encode fl s sched item).1 = .ready →
      (start_send encode fl s sched item).2.written ++
          (start_send encode fl s sched item).2.buffer
        = s.written ++ s.buffer ++ encode item)
    ∧ ((start_send encode fl s sched item).1 ≠ .ready →
      (start_send encode fl s sched item).2.written ++
          (start_send encode fl s sched item).2.buffer
        = s.written ++ s.buffer) := by
  have hpoll := poll_written_buffer sched fl s
  unfold start_send
  split
  · rcases hps : poll_complete fl s sched with ⟨r, s1⟩
    rw [hps] at hpoll
    simp only [] at hpoll
    cases r with
    | ready =>
      simp only []
      split
      · exact ⟨fun h => by simp at h, fun _ => hpoll⟩
      · refine ⟨fun _ => ?_, fun h => absurd rfl h⟩
        simp only []
        rw [← List.append_assoc, hpoll]
    | notReady =>
      simp only []
      split
      · exact ⟨fun h => by simp at h, fun _ => hpoll⟩
      · refine ⟨fun _ => ?_, fun h => absurd rfl h⟩
        simp only []
        rw [← List.append_assoc, hpoll]
    | err e =>
      exact ⟨fun h => by simp at h, fun _ => hpoll⟩
  · refine ⟨fun _ => ?_, fun h => absurd rfl h⟩
    simp only []
    rw [← List.append_assoc]

/-- Over any operation sequence, transport history plus buffered bytes is
exactly the prior contents extended by the concatenated encodings of the
accepted frames, in acceptance order. -/
lemma runOps_inv {F : Type} (encode : F → List Nat) :
    ∀ (ops : List (SinkOp F)) (s : Socket),
      (runOps encode s ops).1.written ++ (runOps encode s ops).1.buffer
        = s.written ++ s.buffer ++ ((runOps encode s ops).2.flatMap encode) := by
  intro ops
  induction ops with
  | nil => intro s; simp [runOps]
  | cons op rest ih =>
    intro s
    cases op with
    | send item sched fl =>
      have hss := start_send_written_buffer encode fl s sched item
      rcases hps : start_send encode fl s sched item with ⟨r, s1⟩
      rw [hps] at hss
      simp only [] at hss
      cases r with
      | ready =>
        have h1 := hss.1 rfl
        have heq : runOps encode s (.send item sched fl :: rest) =
            ((runOps encode s1 rest).1, item :: (runOps encode s1 rest).2) := by
          rw [runOps, hps]
        rw [heq]
        simp only [List.flatMap_cons]
        rw [ih s1, h1]
        simp [List.append_assoc]
      | notReady =>
        have h1 := hss.2 (by simp)
        have heq : runOps encode s (.send item sched fl :: rest) =
            runOps encode s1 rest := by
          rw [runOps, hps]
        rw [heq, ih s1, h1]
      | err e =>
        have h1 := hss.2 (by simp)
        have heq : runOps encode s (.send item sched fl :: rest) =
            runOps encode s1 rest := by
          rw [runOps, hps]
        rw [heq, ih s1, h1]
    | flush sched fl =>
      have hpoll := poll_written_buffer sched fl s
      have heq : runOps encode s (.flush sched fl :: rest) =
          runOps encode (poll_complete fl s sched).2 rest := by
        rw [runOps]
      rw [heq, ih (poll_complete fl s sched).2, hpoll]

/-- A matching codec cannot encode a frame to zero bytes. -/
lemma encode_ne_nil {F : Type} (encode : F → List Nat)
    (dec : List Nat → Except Unit (Option F × List Nat))
    (hdec : ∀ f rest, dec (encode f ++ rest) = .ok (some f, rest))
    (hnil : dec [] = .ok (none, [])) (f : F) : encode f ≠ [] := by
  intro h
  have h1 := hdec f []
  rw [h] at h1
  simp [hnil] at h1

/-- Collecting from a readable reader whose buffer holds exactly the
encodings of `frames` (followed by end-of-stream) yields `frames`. -/
lemma collect_decodes {F : Type} (encode : F → List Nat)
    (dec deof : List Nat → Except Unit (Option F × List Nat))
    (hdec : ∀ f rest, dec (encode f ++ rest) = .ok (some f, rest))
    (hnil : dec [] = .ok (none, []))
    (hdeof : deof [] = .ok (none, [])) :
    ∀ frames : List F,
      fr_collect dec deof (frames.length + 1)
        ⟨false, true, frames.flatMap encode⟩ [.chunk []] = frames := by
  intro frames
  induction frames with
  | nil =>
    have h1 : fr_poll dec deof ⟨false, true, ([] : List Nat)⟩
        [.chunk []] = (.ready none, ⟨true, true, []⟩, []) := by
      rw [fr_poll_dec_none dec deof ⟨false, true, []⟩
        [.chunk []] [] rfl rfl hnil]
      rw [fr_run_eof_chunk dec deof ⟨false, false, []⟩ []]
      simp [frEof, hdeof]
    simp [fr_collect, h1]
  | cons f fs ih =>
    have h3 : dec ((f :: fs).flatMap encode) = .ok (some f, fs.flatMap encode) := by
      rw [List.flatMap_cons]
      exact hdec f _
    have h1 : fr_poll dec deof ⟨false, true, (f :: fs).flatMap encode⟩
        [.chunk []] =
        (.ready (some f), ⟨false, true, fs.flatMap encode⟩, [.chunk []]) := by
      rw [fr_poll_dec_some dec deof _ [.chunk []] f (fs.flatMap encode) rfl rfl h3]
    have hcol : fr_collect dec deof ((f :: fs).length + 1)
        ⟨false, true, (f :: fs).flatMap encode⟩ [.chunk []]
        = f :: fr_collect dec deof (fs.length + 1)
            ⟨false, true, fs.flatMap encode⟩ [.chunk []] := by
      show fr_collect dec deof (fs.length + 1 + 1) _ _ = _
      rw [fr_collect, h1]
    rw [hcol, ih]

/-- Feeding the reader, from its initial state, the byte stream
`frames.flatMap encode` followed by end-of-stream yields `frames`. -/
lemma collect_from_new {F : Type} (encode : F → List Nat)
    (dec deof : List Nat → Except Unit (Option F × List Nat))
    (hdec : ∀ f rest, dec (encode f ++ rest) = .ok (some f, rest))
    (hnil : dec [] = .ok (none, []))
    (hdeof : deof [] = .ok (none, [])) :
    ∀ frames : List F,
      fr_collect dec deof (frames.length + 1) FramedRead.new
        [.chunk (frames.flatMap encode), .chunk []] = frames := by
  intro frames
  cases frames with
  | nil =>
    have h1 : fr_poll dec deof FramedRead.new
        [.chunk ([] : List Nat), .chunk []] =
        (.ready none, ⟨true, true, []⟩, [.chunk []]) := by
      rw [fr_poll_not_readable dec deof _ _ rfl]
      rw [fr_run_eof_chunk dec deof FramedRead.new [.chunk []]]
      simp [frEof, hdeof, FramedRead.new]
    simp [fr_collect, h1]
  | cons f fs =>
    have hne : (f :: fs).flatMap encode ≠ [] := by
      rw [List.flatMap_cons]
      intro h
      exact encode_ne_nil encode dec hdec hnil f (List.append_eq_nil.mp h).1
    have h3 : dec (FramedRead.new.buffer ++ (f :: fs).flatMap encode) =
        .ok (some f, fs.flatMap encode) := by
      show dec ([] ++ (f :: fs).flatMap encode) = _
      rw [List.nil_append, List.flatMap_cons]
      exact hdec f _
    have h1 : fr_poll dec deof FramedRead.new
        [.chunk ((f :: fs).flatMap encode), .chunk []] =
        (.ready (some f), ⟨false, true, fs.flatMap encode⟩, [.chunk []]) := by
      rw [fr_poll_not_readable dec deof _ _ rfl]
      rw [fr_run_chunk_not_eof dec deof FramedRead.new _ _ hne rfl]
      rw [h3]
    have hcol : fr_collect dec deof ((f :: fs).length + 1) FramedRead.new
        [.chunk ((f :: fs).flatMap encode), .chunk []]
        = f :: fr_collect dec deof (fs.length + 1)
            ⟨false, true, fs.flatMap encode⟩ [.chunk []] := by
      show fr_collect dec deof (fs.length + 1 + 1) _ _ = _
      rw [fr_collect, h1]
    rw [hcol, collect_decodes encode dec deof hdec hnil hdeof fs]

/-! ### Claim C8 -/

/-- C8: over any operation sequence from a fresh sink, the bytes handed to
the transport followed by the still-buffered bytes are exactly the
concatenated encodings of the accepted frames in enqueue order (strict
FIFO, nothing lost or duplicated, partial writes included); hence once
the buffer has fully drained, feeding the delivered byte stream through
`FramedRead` with the matching decoder yields exactly the accepted frames
in order. -/
theorem C8_fifo_roundtrip (F : Type) (encode : F → List Nat)
    (dec deof : List Nat → Except Unit (Option F × List Nat))
    (hdec : ∀ f rest, dec (encode f ++ rest) = .ok (some f, rest))
    (hnil : dec [] = .ok (none, []))
    (hdeof : deof [] = .ok (none, []))
    (ops : List (SinkOp F)) :
    (runOps encode Socket.new ops).1.written ++ (runOps encode Socket.new ops).1.buffer
      = (runOps encode Socket.new ops).2.flatMap encode
    ∧ ((runOps encode Socket.new ops).1.buffer = [] →
        fr_collect dec deof ((runOps encode Socket.new ops).2.length + 1)
          FramedRead.new
          [.chunk (runOps encode Socket.new ops).1.written, .chunk []]
        = (runOps encode Socket.new ops).2) := by
  have hinv := runOps_inv encode ops Socket.new
  have e1 : Socket.new.written = [] := rfl
  have e2 : Socket.new.buffer = [] := rfl
  rw [e1, e2, List.nil_append, List.nil_append] at hinv
  refine ⟨hinv, ?_⟩
  intro hbuf
  have hw : (runOps encode Socket.new ops).1.written
      = (runOps encode Socket.new ops).2.flatMap encode := by
    rw [← hinv, hbuf, List.append_nil]
  rw [hw]
  exact collect_from_new encode dec deof hdec hnil hdeof
    (runOps encode Socket.new ops).2

/-- Codec used by the C8 witness: a frame `n` encodes to the single
nonzero byte `n + 1`. -/
def wEncode (n : Nat) : List Nat := [n + 1]

/-- Decoder matching `wEncode`: a zero byte is a decoder error, a nonzero
byte `x` decodes to the frame `x - 1`, and an empty buffer is
incomplete. -/
def wDecode (b : List Nat) : Except Unit (Option Nat × List Nat) :=
  match b with
  | [] => .ok (none, [])
  | x :: r => if x = 0 then .error () else .ok (some (x - 1), r)

/-- Witness for C8: enqueue frame 5 on a fresh sink, flush it with a
1-byte write; the delivered byte stream decodes back to `[5]`. -/
theorem C8_fifo_roundtrip_witness :
    (∀ f rest, wDecode (wEncode f ++ rest) = .ok (some f, rest)) ∧
      wDecode [] = .ok (none, []) ∧
      (runOps wEncode Socket.new
        [.send 5 [] .ok, .flush [.wrote 1] .ok]).1.buffer = [] ∧
      fr_collect wDecode wDecode
        ((runOps wEncode Socket.new
          [.send 5 [] .ok, .flush [.wrote 1] .ok]).2.length + 1)
        FramedRead.new
        [.chunk (runOps wEncode Socket.new
          [.send 5 [] .ok, .flush [.wrote 1] .ok]).1.written, .chunk []]
      = (runOps wEncode Socket.new [.send 5 [] .ok, .flush [.wrote 1] .ok]).2 := by
  have hdec : ∀ f rest, wDecode (wEncode f ++ rest) = .ok (some f, rest) := by
    intro f rest
    simp [wDecode, wEncode]
  refine ⟨hdec, rfl, by decide, ?_⟩
  exact (C8_fifo_roundtrip Nat wEncode wDecode wDecode hdec rfl rfl
    [.send 5 [] .ok, .flush [.wrote 1] .ok]).2 (by decide)

end AWStream
